import Mathlib

/-!
Overview: a shallow embedding of the `rules` validation engine

This file embeds the core of the `rules` Go package — the node algebra of
`rules.go` (Leaf / Conditional / AllOf / AnyOf / Either, with the two-step
`PrepareConditions` / `Evaluate` contract) and the orchestrators of
`valition.go` (`Validate` and `ValidateMulti`) — and proves the testable
properties stated in the package's specification.

Modelling choices:
* Side effects of `Prepare`/`Validate` callbacks are made explicit by
  threading a state of an arbitrary type `S`; a Go function returning
  `error` becomes `S → Option GoErr × S` (the returned error, if any, and
  the state after the call's side effects).
* `Condition.IsValid(ctx) bool` is modelled as a read-only predicate
  `S → Bool` (its signature only reports a boolean).
* `context.Context` cancellation is not modelled; the data-registry binding
  carried by a context (`Get`) is modelled for the typed-rule development as
  an `Option GoVal`.
* `errors.Join(errs...)` returns `nil` exactly when every joined error is
  `nil`, and otherwise preserves the order of the non-nil errors; we
  therefore represent an orchestrator result directly as the ordered list
  of recorded failures (`[]` = success).
* Hooks (`ProcessingHooks`) are purely observational and are not modelled.
-/

namespace RulesEngine

/-- The Go-side `error` values produced by the engine: either the structured
`rules.Error{Field, Err, Code}` or a plain error string. -/
inductive GoErr where
  | structured (field err code : String)
  | plain (msg : String)
deriving DecidableEq

/-- Embedding of the `Condition` interface (`rules.go`): `Name`, `IsPure`,
`IsValid`, and `Prepare` (side effects on the state `S`, possibly failing). -/
structure Cond (S : Type) where
  name : String
  isPure : Bool
  isValid : S → Bool
  prepare : S → Option GoErr × S

/-- Embedding of the `Rule` interface (`rules.go`): `Name`, the mutable
`executionPath` annotation (`RuleBase`), `Prepare` and `Validate`, both
with explicit state threading. -/
structure GoRule (S : Type) where
  name : String
  executionPath : String
  prepare : S → Option GoErr × S
  validate : S → Option GoErr × S

/-- The five `Evaluable` node kinds of `rules.go`: `LeafNode`,
`ConditionNode` (whose `Condition` pointer may be nil), `AllOfNode`,
`AnyOfNode` (with its optional display name), and `ConditionEither`. -/
inductive Evaluable (S : Type) where
  | leaf (rules : List (GoRule S))
  | cond (condition : Option (Cond S)) (children : List (Evaluable S))
  | allOf (children : List (Evaluable S))
  | anyOf (label : String) (children : List (Evaluable S))
  | either (condition : Option (Cond S)) (left : List (Evaluable S)) (right : List (Evaluable S))

variable {S : Type}

mutual

/-- Embedding of the `Evaluate` methods of the five node kinds
(`rules.go`).  `Evaluate` only reads the state, so `s` is a fixed
parameter.  Each case mirrors the corresponding Go method, including the
execution-path strings stamped onto the rules. -/
def evaluate (s : S) : Evaluable S → String → Bool × List (GoRule S)
  | .leaf rules, path =>
      (true, rules.map (fun r => { r with executionPath := path ++ " -> leafNode -> " ++ r.name }))
  | .cond none _, _ => (false, [])
  | .cond (some c) children, path =>
      if c.isValid s then
        (true, (evalAnyList s children (path ++ " -> " ++ c.name)).2)
      else (false, [])
  | .allOf children, path =>
      if children.isEmpty then (true, [])
      else
        match evalAllOf s children (path ++ " -> allOfNode") with
        | some rules => (true, rules)
        | none => (false, [])
  | .anyOf label children, path =>
      if children.isEmpty then (true, [])
      else
        let nodeName := if label = "" then "anyOfNode" else label
        let res := evalAnyList s children (path ++ " -> " ++ nodeName)
        if res.1 then (true, res.2) else (false, [])
  | .either none _ right, path =>
      let rs := (evalAnyList s right (path ++ " -> nil (false)")).2
      (!rs.isEmpty, rs)
  | .either (some c) left right, path =>
      if c.isValid s then
        let rs := (evalAnyList s left (path ++ " -> " ++ c.name ++ " (true)")).2
        (!rs.isEmpty, rs)
      else
        let rs := (evalAnyList s right (path ++ " -> " ++ c.name ++ " (false)")).2
        (!rs.isEmpty, rs)

/-- The `AllOfNode.Evaluate` loop over the children: on the first child
whose `Evaluate` reports false the loop stops with `none` (the node then
returns `(false, nil)`); otherwise all children's rules are concatenated. -/
def evalAllOf (s : S) : List (Evaluable S) → String → Option (List (GoRule S))
  | [], _ => some []
  | t :: ts, path =>
      match evaluate s t path with
      | (true, rules) => (evalAllOf s ts path).map (rules ++ ·)
      | (false, _) => none

/-- The child loop shared by `ConditionNode.Evaluate`,
`AnyOfNode.Evaluate` and `ConditionEither.Evaluate`: every child is
evaluated, the first component records whether any child matched, and the
second concatenates the rules of the matching children in child order. -/
def evalAnyList (s : S) : List (Evaluable S) → String → Bool × List (GoRule S)
  | [], _ => (false, [])
  | t :: ts, path =>
      let head := evaluate s t path
      let rest := evalAnyList s ts path
      (head.1 || rest.1, (if head.1 then head.2 else []) ++ rest.2)

end

mutual

/-- Embedding of the `PrepareConditions` methods (`rules.go`).  A
`ConditionNode` with a pure condition that is currently invalid returns
immediately without preparing anything; a `ConditionEither` with a pure
condition prepares only the branch selected by `IsValid` and never calls
the condition's own `Prepare`. -/
def prepareConditions : Evaluable S → S → Option GoErr × S
  | .leaf _, s => (none, s)
  | .cond none _, s => (none, s)
  | .cond (some c) children, s =>
      if c.isPure && !(c.isValid s) then (none, s)
      else
        match c.prepare s with
        | (some e, s1) => (some e, s1)
        | (none, s1) => prepareList children s1
  | .allOf children, s => prepareList children s
  | .anyOf _ children, s => prepareList children s
  | .either none _ _, s => (none, s)
  | .either (some c) left right, s =>
      if c.isPure then
        if c.isValid s then prepareList left s else prepareList right s
      else
        match c.prepare s with
        | (some e, s1) => (some e, s1)
        | (none, s1) =>
            match prepareList left s1 with
            | (some e, s2) => (some e, s2)
            | (none, s2) => prepareList right s2

/-- `PrepareConditions` over a child list: children are prepared in order
and the first error aborts the loop. -/
def prepareList : List (Evaluable S) → S → Option GoErr × S
  | [], s => (none, s)
  | t :: ts, s =>
      match prepareConditions t s with
      | (some e, s1) => (some e, s1)
      | (none, s1) => prepareList ts s1

end

/-- Phase 3 of `Validate` (`valition.go`): prepare each candidate rule in
order; a failing rule contributes its error and is excluded from the kept
list, and the loop continues with the remaining rules.  Returns the
recorded errors, the successfully prepared rules (in order), and the final
state. -/
def prepRules : List (GoRule S) → S → List GoErr × List (GoRule S) × S
  | [], s => ([], [], s)
  | r :: rs, s =>
      match r.prepare s with
      | (some e, s1) =>
          let rest := prepRules rs s1
          (e :: rest.1, rest.2.1, rest.2.2)
      | (none, s1) =>
          let rest := prepRules rs s1
          (rest.1, r :: rest.2.1, rest.2.2)

/-- Phase 4 of `Validate` (`valition.go`): run `Validate` on each prepared
rule in order, recording every returned error and never aborting. -/
def validateRules : List (GoRule S) → S → List GoErr × S
  | [], s => ([], s)
  | r :: rs, s =>
      match r.validate s with
      | (some e, s1) =>
          let rest := validateRules rs s1
          (e :: rest.1, rest.2)
      | (none, s1) => validateRules rs s1

/-- Embedding of the single-target `Validate` (`valition.go`): prepare the
conditions (any failure is returned immediately as the sole failure),
evaluate the tree for candidate rules, prepare each rule (recording
failures, excluding failed rules), then validate the prepared rules; the
result is the ordered list of recorded failures. -/
def Validate (tree : Evaluable S) (s : S) (name : String) : List GoErr × S :=
  match prepareConditions tree s with
  | (some e, s1) => ([e], s1)
  | (none, s1) =>
      let rules := (evaluate s1 tree name).2
      let prep := prepRules rules s1
      let check := validateRules prep.2.1 prep.2.2
      (prep.1 ++ check.1, check.2)

/-- Phase 1 of `ValidateMulti` (`valition.go`): prepare every target's
conditions, aborting the whole batch on the first failure. -/
def prepareTargets : List (Evaluable S) → S → Option GoErr × S
  | [], s => (none, s)
  | t :: ts, s =>
      match prepareConditions t s with
      | (some e, s1) => (some e, s1)
      | (none, s1) => prepareTargets ts s1

/-- The inner rule-preparation loop of `ValidateMulti` for one target.
The Go loop executes `preparedRules[i] = make([]Rule, 0, len(rules))` at
the top of EVERY iteration, so the kept list is reset before each rule is
prepared: after a failing rule it is empty, after a successful rule it
holds only that rule. -/
def multiPrepTarget : List (GoRule S) → List (GoRule S) → List GoErr → S → List (GoRule S) × List GoErr × S
  | [], kept, errs, s => (kept, errs, s)
  | r :: rs, _kept, errs, s =>
      match r.prepare s with
      | (some e, s1) => multiPrepTarget rs [] (errs ++ [e]) s1
      | (none, s1) => multiPrepTarget rs [r] errs s1

/-- Phases 2–3 of `ValidateMulti`: per target, evaluate the tree and run
the rule-preparation loop; the error list is one shared accumulator across
all targets, as in the Go code. -/
def multiPhase23 (name : String) : List (Evaluable S) → List GoErr → S → List (List (GoRule S)) × List GoErr × S
  | [], errs, s => ([], errs, s)
  | t :: ts, errs, s =>
      let rules := (evaluate s t name).2
      let this1 := multiPrepTarget rules [] errs s
      let rest := multiPhase23 name ts this1.2.1 this1.2.2
      (this1.1 :: rest.1, rest.2.1, rest.2.2)

/-- Phase 4 of `ValidateMulti`: validate each target's kept rules in order,
recording every error. -/
def multiPhase4 : List (List (GoRule S)) → S → List GoErr × S
  | [], s => ([], s)
  | kept :: rest, s =>
      let this1 := validateRules kept s
      let restRes := multiPhase4 rest this1.2
      (this1.1 ++ restRes.1, restRes.2)

/-- Embedding of `ValidateMulti` (`valition.go`).  After phases 2–3 the Go
code executes `errs = make([]error, 0, rulesCounter)`, which rebinds the
error accumulator to a fresh empty slice: the preparation errors recorded
during phases 2–3 (`phase23.2.1` here) do not flow into the returned
result, exactly as in the source. -/
def ValidateMulti (targets : List (Evaluable S)) (s : S) (name : String) : List GoErr × S :=
  match prepareTargets targets s with
  | (some e, s1) => ([e], s1)
  | (none, s1) =>
      let phase23 := multiPhase23 name targets [] s1
      let phase4 := multiPhase4 phase23.1 phase23.2.2
      (phase4.1, phase4.2)

/-! Section: Data registry and typed rules -/

/-- A sample concrete Go struct used to instantiate the type universe. -/
structure User where
  age : Int
deriving DecidableEq

/-- A universe of runtime Go types, standing for the possible dynamic
types of a value bound into the data registry. -/
inductive GoTy where
  | goInt
  | goString
  | goBool
  | goUser
deriving DecidableEq

/-- The Lean type denoted by each runtime Go type. -/
@[reducible] def GoTy.interp : GoTy → Type
  | .goInt => Int
  | .goString => String
  | .goBool => Bool
  | .goUser => User

/-- The name `%T` prints for each runtime Go type. -/
def GoTy.typeName : GoTy → String
  | .goInt => "int"
  | .goString => "string"
  | .goBool => "bool"
  | .goUser => "rules.User"

/-- A dynamically typed Go value (`any`). -/
inductive GoVal where
  | vInt (n : Int)
  | vString (s : String)
  | vBool (b : Bool)
  | vUser (u : User)
deriving DecidableEq

/-- The dynamic type of a `GoVal`. -/
def GoVal.ty : GoVal → GoTy
  | .vInt _ => .goInt
  | .vString _ => .goString
  | .vBool _ => .goBool
  | .vUser _ => .goUser

/-- The Go type assertion `data.(T)`: succeeds with the payload exactly
when the dynamic type is `T`. -/
def narrow : (t : GoTy) → GoVal → Option t.interp
  | .goInt, .vInt n => some n
  | .goString, .vString s => some s
  | .goBool, .vBool b => some b
  | .goUser, .vUser u => some u
  | .goInt, .vString _ => none
  | .goInt, .vBool _ => none
  | .goInt, .vUser _ => none
  | .goString, .vInt _ => none
  | .goString, .vBool _ => none
  | .goString, .vUser _ => none
  | .goBool, .vInt _ => none
  | .goBool, .vString _ => none
  | .goBool, .vUser _ => none
  | .goUser, .vInt _ => none
  | .goUser, .vString _ => none
  | .goUser, .vBool _ => none

/-- The data-registry binding carried by a context: at most one bound
value (`WithRegistry`/`NewDataRegistry`). -/
def Ctx : Type := Option GoVal

/-- Embedding of `rules.Get`: the bound value together with the found
flag, as an `Option`. -/
def Get (ctx : Ctx) : Option GoVal := ctx

/-- Embedding of `RuleDataFunc.Validate` (`rules.go`): retrieve the bound
data from the context; if absent, fail with the `DATA_NOT_FOUND` error;
otherwise invoke the wrapped function on the data. -/
def RuleDataFuncValidate (name : String) (fn : GoVal → Option GoErr) (ctx : Ctx) : Option GoErr :=
  match Get ctx with
  | none => some (.structured name "validation data not found in context" "DATA_NOT_FOUND")
  | some data => fn data

/-- The wrapped function built by `NewTypedRule[T]` (`rules.go`): assert
the data to `T`; on failure return the structured `TYPE_MISMATCH` error
naming the expected type (`%T` of the zero value of `T`) and the actual
type (`%T` of the data); on success invoke the check function on the
narrowed value. -/
def NewTypedRuleFn (t : GoTy) (name : String) (fn : t.interp → Option GoErr) : GoVal → Option GoErr :=
  fun data =>
    match narrow t data with
    | none =>
        some (.structured name
          ("expected data of type " ++ t.typeName ++ ", got " ++ data.ty.typeName)
          "TYPE_MISMATCH")
    | some typed => fn typed

/-- `Validate` of the rule built by `NewTypedRule[T]`: `RuleDataFunc.Validate`
applied to the typed wrapper. -/
def NewTypedRuleValidate (t : GoTy) (name : String) (fn : t.interp → Option GoErr) (ctx : Ctx) : Option GoErr :=
  RuleDataFuncValidate name (NewTypedRuleFn t name fn) ctx

/-! Section: Purity -/

/-- A pure condition: declared pure, and its `Prepare` has no side effects
and never fails (as for `ConditionPure`, whose `Prepare` is a no-op). -/
def CondPure (c : Cond S) : Prop :=
  c.isPure = true ∧ ∀ s, c.prepare s = (none, s)

/-- A pure rule: its `Prepare` has no side effects and never fails, and its
`Validate` has no side effects (it may still report a failure). -/
def RulePure (r : GoRule S) : Prop :=
  (∀ s, r.prepare s = (none, s)) ∧ ∀ s, (r.validate s).2 = s

/-- A tree all of whose conditions and rules are pure. -/
inductive TreePure : Evaluable S → Prop where
  | leaf : ∀ rules, (∀ r ∈ rules, RulePure r) → TreePure (.leaf rules)
  | cond : ∀ co children, (∀ c, co = some c → CondPure c) →
      (∀ t ∈ children, TreePure t) → TreePure (.cond co children)
  | allOf : ∀ children, (∀ t ∈ children, TreePure t) → TreePure (.allOf children)
  | anyOf : ∀ label children, (∀ t ∈ children, TreePure t) → TreePure (.anyOf label children)
  | either : ∀ co l r, (∀ c, co = some c → CondPure c) →
      (∀ t ∈ l, TreePure t) → (∀ t ∈ r, TreePure t) → TreePure (.either co l r)

/-! Section: Evaluation lemmas -/

/-- Characterization of the shared child loop: the flag is `any matched`
and the collected rules are those of the matching children, in order. -/
theorem evalAnyList_eq (s : S) (ts : List (Evaluable S)) (p : String) :
    evalAnyList s ts p =
      (ts.any (fun t => (evaluate s t p).1),
       ts.flatMap (fun t => if (evaluate s t p).1 then (evaluate s t p).2 else [])) := by
  induction ts with
  | nil => rfl
  | cons t ts ih => simp [evalAnyList, ih]

/-- If every child matches, the `AllOf` loop returns all children's rules. -/
theorem evalAllOf_of_all (s : S) (p : String) {ts : List (Evaluable S)}
    (h : ∀ t ∈ ts, (evaluate s t p).1 = true) :
    evalAllOf s ts p = some (ts.flatMap (fun t => (evaluate s t p).2)) := by
  induction ts with
  | nil => rfl
  | cons t ts ih =>
    have h1 : (evaluate s t p).1 = true := h t (List.mem_cons_self t ts)
    have ih1 := ih (fun u hu => h u (List.mem_cons_of_mem t hu))
    cases hev : evaluate s t p with
    | mk b rs =>
      rw [hev] at h1
      simp only at h1
      subst h1
      simp [evalAllOf, hev, ih1]

/-- If the children start with a matching prefix followed by a
non-matching child, the `AllOf` loop aborts with `none`, whatever comes
after the non-matching child. -/
theorem evalAllOf_break (s : S) (p : String) {pre : List (Evaluable S)}
    (bad : Evaluable S) (post : List (Evaluable S))
    (hpre : ∀ t ∈ pre, (evaluate s t p).1 = true)
    (hbad : (evaluate s bad p).1 = false) :
    evalAllOf s (pre ++ bad :: post) p = none := by
  induction pre with
  | nil =>
    cases hev : evaluate s bad p with
    | mk b rs =>
      rw [hev] at hbad
      simp only at hbad
      subst hbad
      simp [evalAllOf, hev]
  | cons t ts ih =>
    have h1 : (evaluate s t p).1 = true := hpre t (List.mem_cons_self t ts)
    have ih1 := ih (fun u hu => hpre u (List.mem_cons_of_mem t hu))
    cases hev : evaluate s t p with
    | mk b rs =>
      rw [hev] at h1
      simp only at h1
      subst h1
      simp [evalAllOf, hev, ih1]

/-- C2: an `AllOf` node with no children evaluates to `(true, [])`;
if some child fails, with every earlier child matching, it evaluates to
`(false, [])` regardless of the children after the failing one, so no rule
of a later child is ever collected; if every child matches it returns
`(true, union of all children's rules)`. -/
theorem allOfNode_evaluate_spec (s : S) (path : String) :
    (evaluate s (Evaluable.allOf ([] : List (Evaluable S))) path = (true, [])) ∧
    (∀ (pre : List (Evaluable S)) (bad : Evaluable S) (post : List (Evaluable S)),
       (∀ t ∈ pre, (evaluate s t (path ++ " -> allOfNode")).1 = true) →
       (evaluate s bad (path ++ " -> allOfNode")).1 = false →
       evaluate s (.allOf (pre ++ bad :: post)) path = (false, [])) ∧
    (∀ children : List (Evaluable S),
       (∀ t ∈ children, (evaluate s t (path ++ " -> allOfNode")).1 = true) →
       evaluate s (.allOf children) path =
         (true, children.flatMap (fun t => (evaluate s t (path ++ " -> allOfNode")).2))) := by
  refine ⟨rfl, ?_, ?_⟩
  · intro pre bad post hpre hbad
    have hne : (pre ++ bad :: post).isEmpty = false := by simp
    simp [evaluate, hne, evalAllOf_break s _ bad post hpre hbad]
  · intro children hall
    cases children with
    | nil => rfl
    | cons t ts =>
      simp [evaluate, evalAllOf_of_all s _ hall]

/-- C2 witness: a concrete conjunction with a matching first child, a
failing second child (a nil-condition node), and a later leaf whose rule is
shown never to be collected. -/
theorem allOfNode_evaluate_spec_witness :
    ((∀ t ∈ [Evaluable.leaf (S := Unit) [⟨"r1", "", fun s => (none, s), fun s => (none, s)⟩]],
        (evaluate () t ("p" ++ " -> allOfNode")).1 = true) ∧
      (evaluate () (Evaluable.cond (S := Unit) none []) ("p" ++ " -> allOfNode")).1 = false) ∧
    evaluate ()
      (Evaluable.allOf ([Evaluable.leaf [⟨"r1", "", fun s => (none, s), fun s => (none, s)⟩]] ++
        Evaluable.cond none [] ::
          [Evaluable.leaf [⟨"r2", "", fun s => (none, s), fun s => (none, s)⟩]])) "p" =
      (false, []) := by
  refine ⟨⟨?_, rfl⟩, ?_⟩
  · intro t ht
    simp only [List.mem_singleton] at ht
    subst ht
    rfl
  · exact (allOfNode_evaluate_spec () "p").2.1 _ _ _
      (by intro t ht; simp only [List.mem_singleton] at ht; subst ht; rfl) rfl

/-- C3: an `AnyOf` node with no children evaluates to `(true, [])`;
with children, every child is evaluated, and the node returns `(true,
union of the matching children's rules in child order)` when some child
matches and `(false, [])` otherwise. -/
theorem anyOfNode_evaluate_spec (label : String) (s : S) (path : String) :
    (evaluate s (Evaluable.anyOf (S := S) label []) path = (true, [])) ∧
    (∀ children : List (Evaluable S), children ≠ [] →
      ((children.any (fun t =>
           (evaluate s t (path ++ " -> " ++ (if label = "" then "anyOfNode" else label))).1) = true →
        evaluate s (.anyOf label children) path =
          (true, children.flatMap (fun t =>
            if (evaluate s t (path ++ " -> " ++ (if label = "" then "anyOfNode" else label))).1
            then (evaluate s t (path ++ " -> " ++ (if label = "" then "anyOfNode" else label))).2
            else []))) ∧
       (children.any (fun t =>
           (evaluate s t (path ++ " -> " ++ (if label = "" then "anyOfNode" else label))).1) = false →
        evaluate s (.anyOf label children) path = (false, [])))) := by
  constructor
  · simp [evaluate]
  · intro children hne
    obtain ⟨t, ts, rfl⟩ := List.exists_cons_of_ne_nil hne
    constructor
    · intro hany
      simp [evaluate, evalAnyList_eq, hany]
    · intro hany
      simp [evaluate, evalAnyList_eq, hany]

/-- C3 witness: three children — a matching leaf with rule `r1`, a
non-matching nil-condition node, and a matching leaf with rule `r2`; the
disjunction matches and collects the stamped `r1` and `r2`, in order. -/
theorem anyOfNode_evaluate_spec_witness :
    ([Evaluable.leaf (S := Unit) [⟨"r1", "", fun s => (none, s), fun s => (none, s)⟩],
      Evaluable.cond none [],
      Evaluable.leaf [⟨"r2", "", fun s => (none, s), fun s => (none, s)⟩]] ≠ []) ∧
    evaluate ()
      (Evaluable.anyOf ""
        [Evaluable.leaf [⟨"r1", "", fun s => (none, s), fun s => (none, s)⟩],
         Evaluable.cond none [],
         Evaluable.leaf [⟨"r2", "", fun s => (none, s), fun s => (none, s)⟩]]) "p" =
      (true,
       [⟨"r1", "p -> anyOfNode -> leafNode -> r1", fun s => (none, s), fun s => (none, s)⟩,
        ⟨"r2", "p -> anyOfNode -> leafNode -> r2", fun s => (none, s), fun s => (none, s)⟩]) := by
  refine ⟨by simp, ?_⟩
  exact ((anyOfNode_evaluate_spec "" () "p").2 _ (by simp)).1 rfl

/-- C6: an `Either` node evaluates the left child list when its
condition is present and valid, and the right child list otherwise
(including the nil-condition case), returning the union of the matching
children's rules; its matched flag is true exactly when the collected rule
list is non-empty. -/
theorem conditionEither_evaluate_spec (c : Cond S) (l r : List (Evaluable S)) (s : S)
    (path : String) :
    (c.isValid s = true →
      (evaluate s (.either (some c) l r) path).2 =
        l.flatMap (fun t =>
          if (evaluate s t (path ++ " -> " ++ c.name ++ " (true)")).1
          then (evaluate s t (path ++ " -> " ++ c.name ++ " (true)")).2 else [])) ∧
    (c.isValid s = false →
      (evaluate s (.either (some c) l r) path).2 =
        r.flatMap (fun t =>
          if (evaluate s t (path ++ " -> " ++ c.name ++ " (false)")).1
          then (evaluate s t (path ++ " -> " ++ c.name ++ " (false)")).2 else [])) ∧
    ((evaluate s (.either none l r) path).2 =
        r.flatMap (fun t =>
          if (evaluate s t (path ++ " -> nil (false)")).1
          then (evaluate s t (path ++ " -> nil (false)")).2 else [])) ∧
    (∀ co : Option (Cond S),
      (evaluate s (.either co l r) path).1 = !((evaluate s (.either co l r) path).2).isEmpty) := by
  refine ⟨?_, ?_, ?_, ?_⟩
  · intro hv; simp [evaluate, hv, evalAnyList_eq]
  · intro hv; simp [evaluate, hv, evalAnyList_eq]
  · simp [evaluate, evalAnyList_eq]
  · intro co
    cases co with
    | none => simp [evaluate]
    | some c0 =>
      by_cases hv : c0.isValid s
      · simp [evaluate, hv]
      · simp [evaluate, hv]

/-- C6 witness: a valid condition selects the left list (its matching
leaf's rule is collected, the right list is ignored) and the matched flag
agrees with non-emptiness of the collected list. -/
theorem conditionEither_evaluate_spec_witness :
    ((⟨"c", true, fun _ => true, fun s => (none, s)⟩ : Cond Unit).isValid () = true) ∧
    (evaluate ()
      (Evaluable.either (some ⟨"c", true, fun _ => true, fun s => (none, s)⟩)
        [Evaluable.leaf [⟨"rl", "", fun s => (none, s), fun s => (none, s)⟩]]
        [Evaluable.leaf [⟨"rr", "", fun s => (none, s), fun s => (none, s)⟩]]) "p").2 =
      [⟨"rl", "p -> c (true) -> leafNode -> rl", fun s => (none, s), fun s => (none, s)⟩] := by
  refine ⟨rfl, ?_⟩
  exact ((conditionEither_evaluate_spec
    (⟨"c", true, fun _ => true, fun s => (none, s)⟩ : Cond Unit)
    [Evaluable.leaf [⟨"rl", "", fun s => (none, s), fun s => (none, s)⟩]]
    [Evaluable.leaf [⟨"rr", "", fun s => (none, s), fun s => (none, s)⟩]] () "p").1 rfl).trans rfl

/-! Section: Preparation lemmas -/

/-- C4: a `ConditionNode` whose condition is pure and currently
invalid returns success from `PrepareConditions` with the state untouched,
for every possible `Prepare` side effect of the condition and for every
child list — so neither the condition's `Prepare` nor any descendant's
`PrepareConditions` is ever invoked. -/
theorem conditionNode_prepare_prune (c : Cond S) (children : List (Evaluable S)) (s : S)
    (hpure : c.isPure = true) (hinv : c.isValid s = false) :
    prepareConditions (.cond (some c) children) s = (none, s) := by
  simp [prepareConditions, hpure, hinv]

/-- C4 witness: a spy condition and a spy descendant log every
`Prepare` call into the state; after `PrepareConditions` under a pure,
invalid condition the log is still empty. -/
theorem conditionNode_prepare_prune_witness :
    ((⟨"spy", true, fun _ => false, fun log => (none, log ++ ["spy prepared"])⟩ :
        Cond (List String)).isPure = true ∧
     (⟨"spy", true, fun _ => false, fun log => (none, log ++ ["spy prepared"])⟩ :
        Cond (List String)).isValid [] = false) ∧
    prepareConditions
      (Evaluable.cond
        (some ⟨"spy", true, fun _ => false, fun log => (none, log ++ ["spy prepared"])⟩)
        [Evaluable.cond
          (some ⟨"inner", false, fun _ => true, fun log => (none, log ++ ["inner prepared"])⟩) []])
      [] = (none, []) :=
  ⟨⟨rfl, rfl⟩, conditionNode_prepare_prune _ _ _ rfl rfl⟩

/-- C5: a `ConditionNode` whose condition is impure first invokes the
condition's `Prepare` and, when that succeeds, continues with the
children's `PrepareConditions` from the post-`Prepare` state — with no
hypothesis on `IsValid`, so this holds even when the condition is
currently invalid. -/
theorem conditionNode_prepare_impure (c : Cond S) (children : List (Evaluable S)) (s s1 : S)
    (himp : c.isPure = false) (hprep : c.prepare s = (none, s1)) :
    prepareConditions (.cond (some c) children) s = prepareList children s1 := by
  simp [prepareConditions, himp, hprep]

/-- C5 witness: an impure, currently-invalid spy condition with a spy
descendant; the final log records both the condition's own `Prepare` and
the descendant's. -/
theorem conditionNode_prepare_impure_witness :
    ((⟨"spyC", false, fun _ => false, fun log => (none, log ++ ["prepare spyC"])⟩ :
        Cond (List String)).isPure = false ∧
     (⟨"spyC", false, fun _ => false, fun log => (none, log ++ ["prepare spyC"])⟩ :
        Cond (List String)).prepare [] = (none, ["prepare spyC"])) ∧
    prepareConditions
      (Evaluable.cond
        (some ⟨"spyC", false, fun _ => false, fun log => (none, log ++ ["prepare spyC"])⟩)
        [Evaluable.cond
          (some ⟨"spyD", false, fun _ => false, fun log => (none, log ++ ["prepare spyD"])⟩) []])
      [] = (none, ["prepare spyC", "prepare spyD"]) :=
  ⟨⟨rfl, rfl⟩,
    (conditionNode_prepare_impure _
      [Evaluable.cond
        (some ⟨"spyD", false, fun _ => false, fun log => (none, log ++ ["prepare spyD"])⟩) []]
      [] ["prepare spyC"] rfl rfl).trans rfl⟩

/-- C10: `PrepareConditions` on an `Either` node: a nil condition
prepares nothing and succeeds; a pure condition never has its own
`Prepare` called and only the branch selected by `IsValid` is prepared
(left when valid, right when not); an impure condition has its `Prepare`
called and then both branches are prepared, aborting on the first error. -/
theorem conditionEither_prepare_spec (c : Cond S) (l r : List (Evaluable S)) (s : S) :
    (prepareConditions (.either (S := S) none l r) s = (none, s)) ∧
    (c.isPure = true → c.isValid s = true →
       prepareConditions (.either (some c) l r) s = prepareList l s) ∧
    (c.isPure = true → c.isValid s = false →
       prepareConditions (.either (some c) l r) s = prepareList r s) ∧
    (c.isPure = false →
       prepareConditions (.either (some c) l r) s =
         match c.prepare s with
         | (some e, s1) => (some e, s1)
         | (none, s1) =>
             match prepareList l s1 with
             | (some e, s2) => (some e, s2)
             | (none, s2) => prepareList r s2) := by
  refine ⟨rfl, ?_, ?_, ?_⟩
  · intro hp hv; simp [prepareConditions, hp, hv]
  · intro hp hv; simp [prepareConditions, hp, hv]
  · intro hp; simp [prepareConditions, hp]

/-- C10 witness: a pure, valid condition with spy nodes on both
branches: only the left branch's spy logs a `Prepare`, and the condition's
own spying `Prepare` never runs. -/
theorem conditionEither_prepare_spec_witness :
    ((⟨"cp", true, fun _ => true, fun log => (none, log ++ ["cp prepared"])⟩ :
        Cond (List String)).isPure = true ∧
     (⟨"cp", true, fun _ => true, fun log => (none, log ++ ["cp prepared"])⟩ :
        Cond (List String)).isValid [] = true) ∧
    prepareConditions
      (Evaluable.either
        (some ⟨"cp", true, fun _ => true, fun log => (none, log ++ ["cp prepared"])⟩)
        [Evaluable.cond
          (some ⟨"L", false, fun _ => true, fun log => (none, log ++ ["L prepared"])⟩) []]
        [Evaluable.cond
          (some ⟨"R", false, fun _ => true, fun log => (none, log ++ ["R prepared"])⟩) []])
      [] = (none, ["L prepared"]) :=
  ⟨⟨rfl, rfl⟩,
    ((conditionEither_prepare_spec
      (⟨"cp", true, fun _ => true, fun log => (none, log ++ ["cp prepared"])⟩ : Cond (List String))
      [Evaluable.cond
        (some ⟨"L", false, fun _ => true, fun log => (none, log ++ ["L prepared"])⟩) []]
      [Evaluable.cond
        (some ⟨"R", false, fun _ => true, fun log => (none, log ++ ["R prepared"])⟩) []]
      []).2.1 rfl rfl).trans rfl⟩

/-! Section: Orchestrator lemmas -/

/-- The rule-preparation phase distributes over appended candidate lists:
errors and kept rules concatenate, and the state threads through. -/
theorem prepRules_append (xs ys : List (GoRule S)) (s : S) :
    prepRules (xs ++ ys) s =
      ((prepRules xs s).1 ++ (prepRules ys (prepRules xs s).2.2).1,
       (prepRules xs s).2.1 ++ (prepRules ys (prepRules xs s).2.2).2.1,
       (prepRules ys (prepRules xs s).2.2).2.2) := by
  induction xs generalizing s with
  | nil => simp [prepRules]
  | cons r rs ih =>
    cases hp : r.prepare s with
    | mk e? s1 => cases e? <;> simp [prepRules, hp, ih]

/-- C7: in a single-target `Validate` run whose condition preparation
succeeds, if candidate rule `r` is the first whose `Prepare` fails (after
the prefix `pre`), then `r`'s error is recorded in the aggregated result,
the remaining candidates `post` are still prepared, and the execute phase
runs exactly on the successfully prepared rules — `r` excluded. -/
theorem Validate_rule_prepare_failure (tree : Evaluable S) (s : S) (name : String) (s1 : S)
    (pre post : List (GoRule S)) (r : GoRule S) (e : GoErr) (s2 : S)
    (hconds : prepareConditions tree s = (none, s1))
    (hrules : (evaluate s1 tree name).2 = pre ++ r :: post)
    (hfail : r.prepare (prepRules pre s1).2.2 = (some e, s2)) :
    Validate tree s name =
      ((prepRules pre s1).1 ++ e :: ((prepRules post s2).1 ++
         (validateRules ((prepRules pre s1).2.1 ++ (prepRules post s2).2.1)
            (prepRules post s2).2.2).1),
       (validateRules ((prepRules pre s1).2.1 ++ (prepRules post s2).2.1)
          (prepRules post s2).2.2).2) := by
  simp only [Validate, hconds, hrules]
  rw [prepRules_append]
  simp [prepRules, hfail, List.append_assoc]

/-- A rule whose `Prepare` always fails, used as a concrete failing
candidate in a single-target run. -/
def wbRule : GoRule Unit :=
  ⟨"bad", "", fun _ => (some (.plain "boom"), ()), fun s => (none, s)⟩

/-- A rule that prepares fine and reports a validation failure. -/
def wgRule : GoRule Unit :=
  ⟨"good", "", fun s => (none, s), fun _ => (some (.plain "invalid"), ())⟩

/-- A leaf holding the failing-prepare rule followed by a second rule. -/
def wTree : Evaluable Unit := .leaf [wbRule, wgRule]

/-- C7 witness: with candidates `[bad, good]` where `bad`'s `Prepare`
fails, the run records `bad`'s error, continues with `good`, and the
result is exactly `[boom, invalid]`. -/
theorem Validate_rule_prepare_failure_witness :
    (prepareConditions wTree () = (none, ())) ∧
    ((evaluate () wTree "run").2 =
       [] ++ { wbRule with executionPath := "run -> leafNode -> bad" } ::
         [{ wgRule with executionPath := "run -> leafNode -> good" }]) ∧
    ({ wbRule with executionPath := "run -> leafNode -> bad" }.prepare
        (prepRules ([] : List (GoRule Unit)) ()).2.2 = (some (.plain "boom"), ())) ∧
    Validate wTree () "run" = ([.plain "boom", .plain "invalid"], ()) :=
  ⟨rfl, rfl, rfl,
    (Validate_rule_prepare_failure wTree () "run" () []
      [{ wgRule with executionPath := "run -> leafNode -> good" }]
      { wbRule with executionPath := "run -> leafNode -> bad" }
      (.plain "boom") () rfl rfl rfl).trans rfl⟩

/-! Section: The `ValidateMulti` divergence -/

/-- A rule whose `Prepare` fails with a structured error. -/
def mBadPrep : GoRule Unit :=
  ⟨"badPrep", "", fun _ => (some (.structured "badPrep" "prep failed" "PREP"), ()),
    fun s => (none, s)⟩

/-- A rule that prepares and validates successfully. -/
def mOk : GoRule Unit := ⟨"ok", "", fun s => (none, s), fun s => (none, s)⟩

/-- A rule that prepares successfully and fails validation. -/
def mValFail : GoRule Unit :=
  ⟨"valFail", "", fun s => (none, s),
    fun _ => (some (.structured "valFail" "check failed" "CHECK"), ())⟩

/-- C1: concrete single-target batches on which `ValidateMulti` loses
recorded failures.  First: a rule-preparation failure is recorded during
phases 2–3 (third conjunct) but the combined result is empty, because the
error accumulator is re-made before phase 4.  Second: a successfully
prepared rule (`valFail`, prepared before the last candidate) never
reaches phase 4, because `preparedRules[i]` is re-made at every iteration
of the per-rule loop, so its validation failure is also missing. -/
theorem validateMulti_failing_input :
    ValidateMulti [Evaluable.leaf [mBadPrep, mOk]] () "batch" = ([], ()) ∧
    ValidateMulti [Evaluable.leaf [mValFail, mOk]] () "batch" = ([], ()) ∧
    (multiPhase23 "batch" [Evaluable.leaf [mBadPrep, mOk]] [] ()).2.1 =
      [.structured "badPrep" "prep failed" "PREP"] :=
  ⟨rfl, rfl, rfl⟩

/-! Section: Typed rules -/

/-- The type assertion fails exactly when the dynamic type differs from
the asserted type. -/
theorem narrow_eq_none_iff (t : GoTy) (v : GoVal) : narrow t v = none ↔ v.ty ≠ t := by
  cases t <;> cases v <;> simp [narrow, GoVal.ty]

/-- C8: `Validate` of a rule built by `NewTypedRule[T]` on bound data:
if the data narrows to `T`, the wrapped check function is invoked on the
narrowed value; if the dynamic type differs from `T`, the result is the
structured `TYPE_MISMATCH` failure naming the expected and the actual
type — the same result for every check function, so the check function is
never invoked. -/
theorem newTypedRule_spec (t : GoTy) (name : String) (fn : t.interp → Option GoErr)
    (v : GoVal) :
    (∀ x, narrow t v = some x → NewTypedRuleValidate t name fn (some v) = fn x) ∧
    (v.ty ≠ t → NewTypedRuleValidate t name fn (some v) =
       some (.structured name
         ("expected data of type " ++ t.typeName ++ ", got " ++ v.ty.typeName)
         "TYPE_MISMATCH")) := by
  constructor
  · intro x hx
    simp [NewTypedRuleValidate, RuleDataFuncValidate, Get, NewTypedRuleFn, hx]
  · intro hne
    have h0 : narrow t v = none := (narrow_eq_none_iff t v).mpr hne
    simp [NewTypedRuleValidate, RuleDataFuncValidate, Get, NewTypedRuleFn, h0]

/-- C8 witness: a negativity check typed over `int` rejects the bound
`int` value `-5` through the check function, and on a bound `string` value
produces the `TYPE_MISMATCH` failure naming `int` and `string`. -/
theorem newTypedRule_spec_witness :
    (narrow .goInt (.vInt (-5)) = some (-5) ∧
     NewTypedRuleValidate .goInt "checkPos"
       (fun n => if n < 0 then some (.plain "neg") else none)
       (some (.vInt (-5))) = some (.plain "neg")) ∧
    ((GoVal.vString "x").ty ≠ .goInt ∧
     NewTypedRuleValidate .goInt "checkPos"
       (fun n => if n < 0 then some (.plain "neg") else none)
       (some (.vString "x")) =
       some (.structured "checkPos" "expected data of type int, got string"
         "TYPE_MISMATCH")) := by
  refine ⟨⟨rfl, ?_⟩, ⟨by decide, ?_⟩⟩
  · exact ((newTypedRule_spec .goInt "checkPos"
      (fun n => if n < 0 then some (.plain "neg") else none) (.vInt (-5))).1 (-5) rfl).trans
      (by decide)
  · exact ((newTypedRule_spec .goInt "checkPos"
      (fun n => if n < 0 then some (.plain "neg") else none) (.vString "x")).2
      (by decide)).trans (by decide)

/-! Section: Purity and idempotence -/

/-- Preparing a child list of nodes whose preparation is a no-op is a
no-op. -/
theorem prepareList_of_pure {ts : List (Evaluable S)}
    (h : ∀ t ∈ ts, ∀ s, prepareConditions t s = (none, s)) (s : S) :
    prepareList ts s = (none, s) := by
  induction ts with
  | nil => rfl
  | cons t ts ih =>
    have h1 := h t (List.mem_cons_self t ts) s
    simp [prepareList, h1, ih (fun u hu s2 => h u (List.mem_cons_of_mem t hu) s2)]

/-- On a pure tree, `PrepareConditions` succeeds and leaves the state
untouched. -/
theorem prepareConditions_of_pure {t : Evaluable S} (h : TreePure t) :
    ∀ s, prepareConditions t s = (none, s) := by
  induction h with
  | leaf rules hr => intro s; rfl
  | cond co children hc hch ih =>
    intro s
    cases co with
    | none => rfl
    | some c =>
      obtain ⟨hp, hprep⟩ := hc c rfl
      by_cases hv : c.isValid s
      · simp [prepareConditions, hp, hv, hprep, prepareList_of_pure ih]
      · simp [prepareConditions, hp, hv]
  | allOf children hch ih => intro s; simp [prepareConditions, prepareList_of_pure ih]
  | anyOf label children hch ih => intro s; simp [prepareConditions, prepareList_of_pure ih]
  | either co l rr hc hl hr ihl ihr =>
    intro s
    cases co with
    | none => rfl
    | some c =>
      obtain ⟨hp, hprep⟩ := hc c rfl
      by_cases hv : c.isValid s
      · simp [prepareConditions, hp, hv, prepareList_of_pure ihl]
      · simp [prepareConditions, hp, hv, prepareList_of_pure ihr]

/-- Every rule collected by the shared child loop comes from some child's
evaluation. -/
theorem mem_evalAnyList {s : S} {ts : List (Evaluable S)} {p : String} {r : GoRule S}
    (h : r ∈ (evalAnyList s ts p).2) : ∃ t ∈ ts, r ∈ (evaluate s t p).2 := by
  induction ts with
  | nil => simp [evalAnyList] at h
  | cons t ts ih =>
    simp only [evalAnyList] at h
    rw [List.mem_append] at h
    cases h with
    | inl h1 =>
      by_cases hb : (evaluate s t p).1
      · simp only [hb, if_true] at h1
        exact ⟨t, List.mem_cons_self t ts, h1⟩
      · simp [hb] at h1
    | inr h2 =>
      obtain ⟨u, hu, hru⟩ := ih h2
      exact ⟨u, List.mem_cons_of_mem t hu, hru⟩

/-- Every rule collected by the `AllOf` loop comes from some child's
evaluation. -/
theorem mem_evalAllOf {s : S} {ts : List (Evaluable S)} {p : String} {rs : List (GoRule S)}
    (h : evalAllOf s ts p = some rs) : ∀ r ∈ rs, ∃ t ∈ ts, r ∈ (evaluate s t p).2 := by
  induction ts generalizing rs with
  | nil =>
    simp only [evalAllOf, Option.some.injEq] at h
    subst h
    intro r hr
    simp at hr
  | cons t ts ih =>
    simp only [evalAllOf] at h
    cases hev : evaluate s t p with
    | mk b rules =>
      rw [hev] at h
      cases b with
      | false => simp at h
      | true =>
        cases hrec : evalAllOf s ts p with
        | none => rw [hrec] at h; simp at h
        | some rest =>
          rw [hrec] at h
          have h2 : rules ++ rest = rs := by simpa using h
          subst h2
          intro r hr
          rw [List.mem_append] at hr
          cases hr with
          | inl h1 =>
            refine ⟨t, List.mem_cons_self t ts, ?_⟩
            rw [hev]
            exact h1
          | inr h2 =>
            obtain ⟨u, hu, hru⟩ := ih hrec r h2
            exact ⟨u, List.mem_cons_of_mem t hu, hru⟩

/-- Every rule returned by evaluating a pure tree is itself pure (the
stamped execution path does not affect purity). -/
theorem rulePure_of_mem_evaluate {t : Evaluable S} (h : TreePure t) :
    ∀ s path r, r ∈ (evaluate s t path).2 → RulePure r := by
  induction h with
  | leaf rules hr =>
    intro s path r hmem
    simp only [evaluate, List.mem_map] at hmem
    obtain ⟨r0, hr0, rfl⟩ := hmem
    exact hr r0 hr0
  | cond co children hc hch ih =>
    intro s path r hmem
    cases co with
    | none => simp [evaluate] at hmem
    | some c =>
      simp only [evaluate] at hmem
      by_cases hv : c.isValid s
      · simp only [hv, if_true] at hmem
        obtain ⟨u, hu, hru⟩ := mem_evalAnyList hmem
        exact ih u hu s _ r hru
      · simp [hv] at hmem
  | allOf children hch ih =>
    intro s path r hmem
    simp only [evaluate] at hmem
    by_cases he : children.isEmpty
    · simp [he] at hmem
    · simp only [he, Bool.false_eq_true, if_false] at hmem
      cases hrec : evalAllOf s children (path ++ " -> allOfNode") with
      | none => rw [hrec] at hmem; simp at hmem
      | some rs =>
        rw [hrec] at hmem
        simp only at hmem
        obtain ⟨u, hu, hru⟩ := mem_evalAllOf hrec r hmem
        exact ih u hu s _ r hru
  | anyOf label children hch ih =>
    intro s path r hmem
    simp only [evaluate] at hmem
    by_cases he : children.isEmpty
    · simp [he] at hmem
    · simp only [he, Bool.false_eq_true, if_false] at hmem
      by_cases hb : (evalAnyList s children
          (path ++ " -> " ++ (if label = "" then "anyOfNode" else label))).1
      · simp only [hb, if_true] at hmem
        obtain ⟨u, hu, hru⟩ := mem_evalAnyList hmem
        exact ih u hu s _ r hru
      · simp [hb] at hmem
  | either co l rr hc hl hr ihl ihr =>
    intro s path r hmem
    cases co with
    | none =>
      simp only [evaluate] at hmem
      obtain ⟨u, hu, hru⟩ := mem_evalAnyList hmem
      exact ihr u hu s _ r hru
    | some c =>
      simp only [evaluate] at hmem
      by_cases hv : c.isValid s
      · simp only [hv, if_true] at hmem
        obtain ⟨u, hu, hru⟩ := mem_evalAnyList hmem
        exact ihl u hu s _ r hru
      · simp only [hv, Bool.false_eq_true, if_false] at hmem
        obtain ⟨u, hu, hru⟩ := mem_evalAnyList hmem
        exact ihr u hu s _ r hru

/-- Preparing candidates whose `Prepare` is a no-op records no error,
keeps every rule, and leaves the state untouched. -/
theorem prepRules_of_pure {rs : List (GoRule S)}
    (h : ∀ r ∈ rs, ∀ s, r.prepare s = (none, s)) (s : S) :
    prepRules rs s = ([], rs, s) := by
  induction rs with
  | nil => rfl
  | cons r rs ih =>
    have h1 := h r (List.mem_cons_self r rs) s
    simp [prepRules, h1, ih (fun u hu s2 => h u (List.mem_cons_of_mem r hu) s2)]

/-- Validating rules whose `Validate` leaves the state untouched leaves
the state untouched. -/
theorem validateRules_state_of_pure {rs : List (GoRule S)}
    (h : ∀ r ∈ rs, ∀ s, (r.validate s).2 = s) (s : S) :
    (validateRules rs s).2 = s := by
  induction rs with
  | nil => rfl
  | cons r rs ih =>
    have h1 := h r (List.mem_cons_self r rs) s
    cases hv : r.validate s with
    | mk e? s1 =>
      rw [hv] at h1
      simp only at h1
      subst h1
      cases e? <;>
        simp [validateRules, hv, ih (fun u hu s2 => h u (List.mem_cons_of_mem r hu) s2)]

/-- A full `Validate` run on a pure tree leaves the state untouched. -/
theorem Validate_state_of_pure {tree : Evaluable S} (h : TreePure tree) (s : S)
    (name : String) : (Validate tree s name).2 = s := by
  have hprep := prepareConditions_of_pure h s
  have hrules : ∀ r ∈ (evaluate s tree name).2, RulePure r :=
    fun r hr => rulePure_of_mem_evaluate h s name r hr
  simp only [Validate, hprep]
  rw [prepRules_of_pure (fun r hr => (hrules r hr).1)]
  exact validateRules_state_of_pure (fun r hr => (hrules r hr).2) s

/-- C9: on a tree all of whose conditions and rules are pure, running
`Validate` a second time in sequence (from the state the first run left
behind) yields the identical ordered failure list and state. -/
theorem Validate_pure_idempotent (tree : Evaluable S) (s : S) (name : String)
    (h : TreePure tree) :
    Validate tree (Validate tree s name).2 name = Validate tree s name := by
  rw [Validate_state_of_pure h s name]

/-- A pure condition over a numeric state. -/
def c9c : Cond Nat := ⟨"isPos", true, fun n => decide (0 < n), fun s => (none, s)⟩

/-- A pure rule that reports a failure on state zero without changing the
state. -/
def c9r : GoRule Nat :=
  ⟨"check", "", fun s => (none, s), fun s => (if s = 0 then some (.plain "zero") else none, s)⟩

/-- A concrete pure tree: a conditional node over a leaf. -/
def tree9 : Evaluable Nat := .cond (some c9c) [.leaf [c9r]]

/-- C9 witness: the concrete pure tree validates identically on two
consecutive runs from state `5`. -/
theorem Validate_pure_idempotent_witness :
    TreePure tree9 ∧
    Validate tree9 (Validate tree9 5 "run").2 "run" = Validate tree9 5 "run" := by
  have h9 : TreePure tree9 := by
    refine TreePure.cond _ _ (fun c hc => ?_) (fun t ht => ?_)
    · cases hc
      exact ⟨rfl, fun s => rfl⟩
    · simp only [List.mem_singleton] at ht
      subst ht
      refine TreePure.leaf _ (fun r hr => ?_)
      simp only [List.mem_singleton] at hr
      subst hr
      exact ⟨fun s => rfl, fun s => rfl⟩
  exact ⟨h9, Validate_pure_idempotent tree9 5 "run" h9⟩

end RulesEngine
